import Mathlib

/-!
Shallow embedding of `GPflow/kernels.py` (kernel/covariance functions for
Gaussian-process models) and proofs about it.

Modelling conventions:
* TensorFlow / numpy float tensors are modelled as real-valued functions of
  their (natural-number) indices; a matrix is `ℕ → ℕ → ℝ` and only the
  entries below the relevant shape bounds are meaningful.
* Machine floating point is idealised as `ℝ`; all the claims below are about
  the mathematical content of the tensor expressions.
* External primitives that live outside this repository (numpy's
  `hermgauss` node/weight tables and TensorFlow's `tf.cholesky`) enter as
  explicit parameters of the definitions that use them.
-/

noncomputable section

namespace GPflow

/-- How `Kern.__init__` stores `active_dims` either as a Python `slice`
(`slice(input_dim)` when `active_dims is None`) or as an integer array. -/
inductive ActiveDims where
  | whole (stop : ℕ)
  | arr (dims : List ℕ)

/-- Slicing, `Kern._slice`, acting on one row of `X`.  For the slice form we keep the
first `stop` columns (entries beyond the slice are dead and modelled as `0`);
for the array form column `j` of the result is column `dims[j]` of the input. -/
def sliceRow : ActiveDims → (ℕ → ℝ) → ℕ → ℝ
  | .whole s, x, j => if j < s then x j else 0
  | .arr l, x, j => if j < l.length then x (l.getD j 0) else 0

/-- Entry `(i, j)` of `Stationary.square_dist(X, X2)`:
`X = X / self.lengthscales` followed by
`-2 X X2ᵀ + rowsums(X²) + colsums(X2²)`, written for the pair of rows
`x = X[i]`, `y = X2[j]` (for the `X2 is None` branch both rows come from `X`,
which yields the same expression). -/
def square_dist (ℓ : ℕ → ℝ) (d : ℕ) (x y : ℕ → ℝ) : ℝ :=
  -2 * ∑ c ∈ Finset.range d, (x c / ℓ c) * (y c / ℓ c)
    + ∑ c ∈ Finset.range d, (x c / ℓ c) ^ 2
    + ∑ c ∈ Finset.range d, (y c / ℓ c) ^ 2

/-- Method `Stationary.euclid_dist`: `tf.sqrt(r2 + 1e-12)`. -/
def euclid_dist (ℓ : ℕ → ℝ) (d : ℕ) (x y : ℕ → ℝ) : ℝ :=
  Real.sqrt (square_dist ℓ d x y + 1e-12)

/-- The concrete kernel classes of the module. -/
inductive KClass where
  | white | constant | rbf | exponential | matern12 | matern32 | matern52
  | cosine | linear | polynomial | periodic | coregion
  deriving DecidableEq

/-- The state of a (non-combination) kernel object.  Each class reads only the
fields corresponding to its Python parameters; defaults mirror the Python
constructor defaults.  `variance_arr` is the (possibly ARD) per-column variance
of `Linear`/`Polynomial`; `lengthscales` the (possibly ARD) lengthscales of
`Stationary`; `lengthscale`/`period` belong to `PeriodicKernel`;
`degree`/`offset` to `Polynomial`; `W`/`kappa`/`rank`/`output_dim` to
`Coregion`. -/
structure BaseKern where
  cls : KClass
  input_dim : ℕ
  active_dims : ActiveDims
  variance : ℝ := 1
  variance_arr : ℕ → ℝ := fun _ => 1
  lengthscales : ℕ → ℝ := fun _ => 1
  lengthscale : ℝ := 1
  period : ℝ := 1
  degree : ℝ := 3
  offset : ℝ := 1
  W : ℕ → ℕ → ℝ := fun _ _ => 0
  kappa : ℕ → ℝ := fun _ => 1
  rank : ℕ := 0
  output_dim : ℕ := 0

/-- Cast `tf.cast(·, tf.int32)` on a float: truncation toward zero. -/
def castIdx (r : ℝ) : ℤ := if 0 ≤ r then ⌊r⌋ else ⌈r⌉

/-- Row `i` of `Coregion`'s `W` parameter, with the gather guarded by the
index range of the `output_dim × rank` parameter array. -/
def coregionW (b : BaseKern) (i : ℤ) (r : ℕ) : ℝ :=
  if 0 ≤ i ∧ i.toNat < b.output_dim then b.W i.toNat r else 0

/-- The `Coregion` `kappa` parameter at a (cast) index, range-guarded. -/
def coregionKappa (b : BaseKern) (i : ℤ) : ℝ :=
  if 0 ≤ i ∧ i.toNat < b.output_dim then b.kappa i.toNat else 0

/-- For `Coregion`: `B = W Wᵀ + diag(kappa)`, looked up at a pair of cast
indices (`tf.gather(tf.transpose(tf.gather(B, X2)), X)`). -/
def coregionB (b : BaseKern) (i j : ℤ) : ℝ :=
  (∑ r ∈ Finset.range b.rank, coregionW b i r * coregionW b j r)
    + (if i = j then coregionKappa b i else 0)

/-- Entry `(i, j)` of `K(X, X2)` for each base class, written for the already
sliced rows `x = X[i]`, `y = X2[j]`.  Each branch is the body of the class's
`K` method. -/
def baseEntry (b : BaseKern) (x y : ℕ → ℝ) : ℝ :=
  match b.cls with
  | .white => 0
  | .constant => b.variance
  | .rbf => b.variance * Real.exp (-(square_dist b.lengthscales b.input_dim x y) / 2)
  | .exponential =>
      b.variance * Real.exp (-0.5 * euclid_dist b.lengthscales b.input_dim x y)
  | .matern12 => b.variance * Real.exp (-(euclid_dist b.lengthscales b.input_dim x y))
  | .matern32 =>
      b.variance * (1 + Real.sqrt 3 * euclid_dist b.lengthscales b.input_dim x y) *
        Real.exp (-(Real.sqrt 3) * euclid_dist b.lengthscales b.input_dim x y)
  | .matern52 =>
      b.variance *
        (1 + Real.sqrt 5 * euclid_dist b.lengthscales b.input_dim x y
          + 5 / 3 * euclid_dist b.lengthscales b.input_dim x y ^ 2) *
        Real.exp (-(Real.sqrt 5) * euclid_dist b.lengthscales b.input_dim x y)
  | .cosine => b.variance * Real.cos (euclid_dist b.lengthscales b.input_dim x y)
  | .linear => ∑ c ∈ Finset.range b.input_dim, x c * b.variance_arr c * y c
  | .polynomial =>
      ((∑ c ∈ Finset.range b.input_dim, x c * b.variance_arr c * y c) + b.offset)
        ^ b.degree
  | .periodic =>
      b.variance * Real.exp (-0.5 *
        ∑ c ∈ Finset.range b.input_dim,
          (Real.sin (Real.pi * (x c - y c) / b.period) / b.lengthscale) ^ 2)
  | .coregion => coregionB b (castIdx (x 0)) (castIdx (y 0))

/-- Entry `i` of `Kdiag(X)` for each base class, at the sliced row `x = X[i]`.  The
`Static` and `Stationary` classes (and `PeriodicKernel`) fill the diagonal
with the variance regardless of `X`; `Linear`/`Polynomial`/`Coregion` read the
row. -/
def baseDiag (b : BaseKern) (x : ℕ → ℝ) : ℝ :=
  match b.cls with
  | .white => b.variance
  | .constant => b.variance
  | .rbf => b.variance
  | .exponential => b.variance
  | .matern12 => b.variance
  | .matern32 => b.variance
  | .matern52 => b.variance
  | .cosine => b.variance
  | .linear => ∑ c ∈ Finset.range b.input_dim, x c ^ 2 * b.variance_arr c
  | .polynomial =>
      ((∑ c ∈ Finset.range b.input_dim, x c ^ 2 * b.variance_arr c) + b.offset)
        ^ b.degree
  | .periodic => b.variance
  | .coregion =>
      (∑ r ∈ Finset.range b.rank, coregionW b (castIdx (x 0)) r ^ 2)
        + coregionKappa b (castIdx (x 0))

/-- A kernel object: either one of the base classes, or an `Add`/`Prod`
combination holding its computed `input_dim` and its (flattened) `kern_list`.
(A `Combination`'s own `active_dims` is `slice(input_dim)`, set by
`Kern.__init__(input_dim=input_dim)` with `active_dims=None`.) -/
inductive Kern where
  | base (b : BaseKern)
  | add (input_dim : ℕ) (kern_list : List Kern)
  | prod (input_dim : ℕ) (kern_list : List Kern)

/-- Python `functools.reduce(tf.add, l)`: left fold of pointwise addition over a
nonempty list (the empty case cannot arise in Python; it is mapped to `0`). -/
def reduceAdd : List (ℕ → ℕ → ℝ) → ℕ → ℕ → ℝ
  | [] => 0
  | h :: t => t.foldl (fun a c => a + c) h

/-- Python `functools.reduce(tf.mul, l)`, analogously. -/
def reduceMul : List (ℕ → ℕ → ℝ) → ℕ → ℕ → ℝ
  | [] => 1
  | h :: t => t.foldl (fun a c => a * c) h

/-- Diagonal version of `reduceAdd` (vectors instead of matrices). -/
def reduceAddV : List (ℕ → ℝ) → ℕ → ℝ
  | [] => 0
  | h :: t => t.foldl (fun a c => a + c) h

/-- Diagonal version of `reduceMul`. -/
def reduceMulV : List (ℕ → ℝ) → ℕ → ℝ
  | [] => 1
  | h :: t => t.foldl (fun a c => a * c) h

mutual

/-- Method `k.K(X, X2)` with `X2` provided (the `X2 is not None` path), as a function
of the entry position.  Base kernels slice their inputs
(`presliced=False`) and apply their entry formula to the selected rows;
`Add.K`/`Prod.K` reduce the children's `K` matrices with `tf.add`/`tf.mul`. -/
def Kern.K2 (X X2 : ℕ → ℕ → ℝ) : Kern → ℕ → ℕ → ℝ
  | .base b => fun i j =>
      baseEntry b (sliceRow b.active_dims (X i)) (sliceRow b.active_dims (X2 j))
  | .add _ ks => reduceAdd (K2list X X2 ks)
  | .prod _ ks => reduceMul (K2list X X2 ks)

/-- The children's `K(X, X2)` matrices, `[k.K(X, X2) for k in kern_list]`. -/
def K2list (X X2 : ℕ → ℕ → ℝ) : List Kern → List (ℕ → ℕ → ℝ)
  | [] => []
  | k :: t => Kern.K2 X X2 k :: K2list X X2 t

end

mutual

/-- Method `k.K(X)` with `X2 = None`.  `White.K` returns `tf.diag` of the variance
fill; every other base class evaluates its entry formula with both rows drawn
from `X`; combinations pass `X2 = None` on to their children. -/
def Kern.Ksymm (X : ℕ → ℕ → ℝ) : Kern → ℕ → ℕ → ℝ
  | .base b => fun i j =>
      if b.cls = KClass.white then (if i = j then b.variance else 0)
      else baseEntry b (sliceRow b.active_dims (X i)) (sliceRow b.active_dims (X j))
  | .add _ ks => reduceAdd (Ksymmlist X ks)
  | .prod _ ks => reduceMul (Ksymmlist X ks)

/-- Children results `[k.K(X) for k in kern_list]` (with `X2 = None`). -/
def Ksymmlist (X : ℕ → ℕ → ℝ) : List Kern → List (ℕ → ℕ → ℝ)
  | [] => []
  | k :: t => Kern.Ksymm X k :: Ksymmlist X t

end

mutual

/-- Method `k.Kdiag(X)` as a function of the entry position. -/
def Kern.Kdiag (X : ℕ → ℕ → ℝ) : Kern → ℕ → ℝ
  | .base b => fun i => baseDiag b (sliceRow b.active_dims (X i))
  | .add _ ks => reduceAddV (Kdiaglist X ks)
  | .prod _ ks => reduceMulV (Kdiaglist X ks)

/-- Children results `[k.Kdiag(X) for k in kern_list]`. -/
def Kdiaglist (X : ℕ → ℕ → ℝ) : List Kern → List (ℕ → ℝ)
  | [] => []
  | k :: t => Kern.Kdiag X k :: Kdiaglist X t

end

/-- The `White` kernel object (a `Static` kernel). -/
def White (input_dim : ℕ) (variance : ℝ := 1) (active_dims : ActiveDims) : Kern :=
  .base { cls := .white, input_dim := input_dim, active_dims := active_dims,
          variance := variance }

/-- The `Constant` kernel object (a `Static` kernel). -/
def Constant (input_dim : ℕ) (variance : ℝ := 1) (active_dims : ActiveDims) : Kern :=
  .base { cls := .constant, input_dim := input_dim, active_dims := active_dims,
          variance := variance }

/-- Class `Bias` is "another name for the Constant kernel". -/
def Bias (input_dim : ℕ) (variance : ℝ := 1) (active_dims : ActiveDims) : Kern :=
  Constant input_dim variance active_dims

/-- The `RBF` kernel object. -/
def RBF (input_dim : ℕ) (variance : ℝ := 1) (lengthscales : ℕ → ℝ := fun _ => 1)
    (active_dims : ActiveDims) : Kern :=
  .base { cls := .rbf, input_dim := input_dim, active_dims := active_dims,
          variance := variance, lengthscales := lengthscales }

/-- The `Exponential` kernel object. -/
def Exponential (input_dim : ℕ) (variance : ℝ := 1)
    (lengthscales : ℕ → ℝ := fun _ => 1) (active_dims : ActiveDims) : Kern :=
  .base { cls := .exponential, input_dim := input_dim, active_dims := active_dims,
          variance := variance, lengthscales := lengthscales }

/-- The `Matern12` kernel object. -/
def Matern12 (input_dim : ℕ) (variance : ℝ := 1)
    (lengthscales : ℕ → ℝ := fun _ => 1) (active_dims : ActiveDims) : Kern :=
  .base { cls := .matern12, input_dim := input_dim, active_dims := active_dims,
          variance := variance, lengthscales := lengthscales }

/-- The `Matern32` kernel object. -/
def Matern32 (input_dim : ℕ) (variance : ℝ := 1)
    (lengthscales : ℕ → ℝ := fun _ => 1) (active_dims : ActiveDims) : Kern :=
  .base { cls := .matern32, input_dim := input_dim, active_dims := active_dims,
          variance := variance, lengthscales := lengthscales }

/-- The `Matern52` kernel object. -/
def Matern52 (input_dim : ℕ) (variance : ℝ := 1)
    (lengthscales : ℕ → ℝ := fun _ => 1) (active_dims : ActiveDims) : Kern :=
  .base { cls := .matern52, input_dim := input_dim, active_dims := active_dims,
          variance := variance, lengthscales := lengthscales }

/-- The `Cosine` kernel object. -/
def Cosine (input_dim : ℕ) (variance : ℝ := 1)
    (lengthscales : ℕ → ℝ := fun _ => 1) (active_dims : ActiveDims) : Kern :=
  .base { cls := .cosine, input_dim := input_dim, active_dims := active_dims,
          variance := variance, lengthscales := lengthscales }

/-- The `Linear` kernel object (ARD: one variance per column). -/
def Linear (input_dim : ℕ) (variance : ℕ → ℝ := fun _ => 1)
    (active_dims : ActiveDims) : Kern :=
  .base { cls := .linear, input_dim := input_dim, active_dims := active_dims,
          variance_arr := variance }

/-- The `Polynomial` kernel object. -/
def Polynomial (input_dim : ℕ) (degree : ℝ := 3) (variance : ℕ → ℝ := fun _ => 1)
    (offset : ℝ := 1) (active_dims : ActiveDims) : Kern :=
  .base { cls := .polynomial, input_dim := input_dim, active_dims := active_dims,
          variance_arr := variance, degree := degree, offset := offset }

/-- The `PeriodicKernel` object. -/
def PeriodicKernel (input_dim : ℕ) (period : ℝ := 1) (variance : ℝ := 1)
    (lengthscales : ℝ := 1) (active_dims : ActiveDims) : Kern :=
  .base { cls := .periodic, input_dim := input_dim, active_dims := active_dims,
          variance := variance, lengthscale := lengthscales, period := period }

/-- The `Coregion` kernel object (`input_dim` is asserted to be `1`). -/
def Coregion (input_dim : ℕ) (output_dim : ℕ) (rank : ℕ) (W : ℕ → ℕ → ℝ)
    (kappa : ℕ → ℝ) (active_dims : ActiveDims) : Kern :=
  .base { cls := .coregion, input_dim := input_dim, active_dims := active_dims,
          W := W, kappa := kappa, rank := rank, output_dim := output_dim }

/-- Numpy `np.max` over a list of naturals (the lists in question are nonempty, so
the `0` default never decides the value). -/
def listMax (l : List ℕ) : ℕ := l.foldr max 0

/-- The contribution of one child to a `Combination`'s `input_dim`:
`k.input_dim if type(k.active_dims) is slice else np.max(k.active_dims) + 1`. -/
def contrib : Kern → ℕ
  | .base b =>
      match b.active_dims with
      | .whole _ => b.input_dim
      | .arr l => listMax l + 1
  | .add input_dim _ => input_dim
  | .prod input_dim _ => input_dim

/-- One step of `Combination.__init__`'s flattening loop, for `Add`:
an `Add` child contributes its own `kern_list`, anything else itself. -/
def spliceAdd : Kern → List Kern
  | .add _ ks => ks
  | k => [k]

/-- The flattening step for `Prod`. -/
def spliceProd : Kern → List Kern
  | .prod _ ks => ks
  | k => [k]

/-- Constructor `Add(kern_list)` via `Combination.__init__`: `input_dim` is the max of the
children's contributions, and nested `Add`s are spliced into the list. -/
def mkAdd (kern_list : List Kern) : Kern :=
  .add (listMax (kern_list.map contrib)) (kern_list.flatMap spliceAdd)

/-- Constructor `Prod(kern_list)` via `Combination.__init__`. -/
def mkProd (kern_list : List Kern) : Kern :=
  .prod (listMax (kern_list.map contrib)) (kern_list.flatMap spliceProd)

/-- Operator `Kern.__add__(self, other) = Add([self, other])`. -/
instance : Add Kern := ⟨fun s o => mkAdd [s, o]⟩

/-- Operator `Kern.__mul__(self, other) = Prod([self, other])`. -/
instance : Mul Kern := ⟨fun s o => mkProd [s, o]⟩

/-- Whether a kernel object is an instance of `Add`. -/
def Kern.isAdd : Kern → Bool
  | .add _ _ => true
  | _ => false

/-- Whether a kernel object is an instance of `Prod`. -/
def Kern.isProd : Kern → Bool
  | .prod _ _ => true
  | _ => false

/-- The `input_dim` attribute of a kernel object. -/
def Kern.input_dim : Kern → ℕ
  | .base b => b.input_dim
  | .add input_dim _ => input_dim
  | .prod input_dim _ => input_dim

/-- The `kern_list` attribute of a `Combination` (junk `[]` on base kernels). -/
def Kern.kern_list : Kern → List Kern
  | .base _ => []
  | .add _ ks => ks
  | .prod _ ks => ks

/-- The consistency between `input_dim` and `active_dims` that
`Kern.__init__` establishes: a `None` `active_dims` becomes
`slice(input_dim)`, and an array one must satisfy
`len(active_dims) == input_dim`. -/
def activeWF (input_dim : ℕ) : ActiveDims → Prop
  | .whole s => s = input_dim
  | .arr l => l.length = input_dim

/-- Kernel objects as Python can actually construct them: base kernels went
through `Kern.__init__`, and every `Add`/`Prod` was built by
`Combination.__init__` (nonempty list, flattened `kern_list`, computed
`input_dim`). -/
inductive WF : Kern → Prop
  | base (b : BaseKern) : activeWF b.input_dim b.active_dims → WF (.base b)
  | add (input_dim : ℕ) (ks : List Kern) : ks ≠ [] → (∀ k ∈ ks, WF k) →
      (∀ k ∈ ks, k.isAdd = false) → input_dim = listMax (ks.map contrib) →
      WF (.add input_dim ks)
  | prod (input_dim : ℕ) (ks : List Kern) : ks ≠ [] → (∀ k ∈ ks, WF k) →
      (∀ k ∈ ks, k.isProd = false) → input_dim = listMax (ks.map contrib) →
      WF (.prod input_dim ks)

/-- The set of columns selected by an `active_dims` value. -/
def activeColsA : ActiveDims → ℕ → Prop
  | .whole s, j => j < s
  | .arr l, j => j ∈ l

/-- The set of input columns a kernel's `active_dims` selects (a
`Combination`'s `active_dims` is `slice(input_dim)`). -/
def Kern.activeCols : Kern → ℕ → Prop
  | .base b, j => activeColsA b.active_dims j
  | .add input_dim _, j => j < input_dim
  | .prod input_dim _, j => j < input_dim

/-! ### Gauss-Hermite quadrature (`mvhermgauss` and the `eK...` methods)

`hermgauss` (numpy's 1-D Hermite-Gauss nodes `gh_x` and weights `gh_w`) and
`tf.cholesky` are primitives of numpy/TensorFlow, not code of this module;
they enter as the parameters `ghx`, `ghw` and `chol`. -/

/-- Position `e` of row `g` of `itertools.product(*(v,) * D)`: the first
factor varies slowest, so row `g` spells `g` in base `H`, most significant
digit first. -/
def gridDigit (H D g e : ℕ) : ℕ := g / H ^ (D - 1 - e) % H

/-- Array `xn` of `mvhermgauss`: the `H**D × D` array of 1-D node tuples. -/
def mvh_xn (ghx : ℕ → ℝ) (H D g e : ℕ) : ℝ := ghx (gridDigit H D g e)

/-- Array `wn` of `mvhermgauss`: `np.prod(itertools.product(*(gh_w,) * D), 1)`. -/
def mvh_wn (ghw : ℕ → ℝ) (H D g : ℕ) : ℝ :=
  ∏ e ∈ Finset.range D, ghw (gridDigit H D g e)

/-- The `N × D × H**D` tensor `X` of `mvhermgauss`:
`2.0 ** 0.5 * tf.batch_matmul(cholXcov, tf.tile(xn[None]), adj_y=True)
 + tf.expand_dims(means, 2)`, with `L = tf.cholesky(covs)`. -/
def mvh_X (ghx : ℕ → ℝ) (H D : ℕ) (L : ℕ → ℕ → ℕ → ℝ) (means : ℕ → ℕ → ℝ)
    (n d g : ℕ) : ℝ :=
  Real.sqrt 2 * ∑ e ∈ Finset.range D, L n d e * mvh_xn ghx H D g e + means n d

/-- Stack `Xr = tf.reshape(tf.transpose(X, [2, 0, 1]), (-1, D))`: row `r` of the
`(H**D * N) × D` stack of evaluation locations is `X[r % N, ·, r / N]`. -/
def mvh_Xr (ghx : ℕ → ℝ) (H D N : ℕ) (L : ℕ → ℕ → ℕ → ℝ) (means : ℕ → ℕ → ℝ)
    (r d : ℕ) : ℝ :=
  mvh_X ghx H D L means (r % N) d (r / N)

/-- The weights returned by `mvhermgauss`: `wn * np.pi ** (-D * 0.5)`. -/
def mvh_w (ghw : ℕ → ℝ) (H D g : ℕ) : ℝ :=
  mvh_wn ghw H D g * Real.pi ^ (-(D : ℝ) * 0.5)

/-- Method `Kern.eKxz(Z, Xmu, Xcov)` after `_slice`/`_slice_cov` (so `Xmu`, `Xcov`,
`Z` are already restricted to the kernel's `input_dim = D` columns), for a
kernel whose presliced `K(A, B)[r, m]` is `k A[r] B[m]` — which holds for
every class in the module.  `chol` is `tf.cholesky`;
`Kxz = reshape(K(reshape(X, (-1, D)), Z, presliced=True), (H**D, N, M))` and
`eKxz = reduce_sum(Kxz * wn[:, None, None], 0)`. -/
def eKxz (k : (ℕ → ℝ) → (ℕ → ℝ) → ℝ) (ghx ghw : ℕ → ℝ)
    (chol : (ℕ → ℕ → ℕ → ℝ) → ℕ → ℕ → ℕ → ℝ) (H D N : ℕ)
    (Xmu : ℕ → ℕ → ℝ) (Xcov : ℕ → ℕ → ℕ → ℝ) (Z : ℕ → ℕ → ℝ) (n m : ℕ) : ℝ :=
  ∑ g ∈ Finset.range (H ^ D),
    k (mvh_Xr ghx H D N (chol Xcov) Xmu (g * N + n)) (Z m) * mvh_w ghw H D g

/-- Method `Kern.eKdiag(Xmu, Xcov)` after slicing, for a kernel whose presliced
`Kdiag(A)[r]` is `kdiag A[r]`:
`Kdiag = reshape(Kdiag(X, presliced=True), (H**D, N))`,
`eKdiag = reduce_sum(Kdiag * wn[:, None], 0)`. -/
def eKdiag (kdiag : (ℕ → ℝ) → ℝ) (ghx ghw : ℕ → ℝ)
    (chol : (ℕ → ℕ → ℕ → ℝ) → ℕ → ℕ → ℕ → ℝ) (H D N : ℕ)
    (Xmu : ℕ → ℕ → ℝ) (Xcov : ℕ → ℕ → ℕ → ℝ) (n : ℕ) : ℝ :=
  ∑ g ∈ Finset.range (H ^ D),
    kdiag (mvh_Xr ghx H D N (chol Xcov) Xmu (g * N + n)) * mvh_w ghw H D g

/-- Method `Kern.eKzxKxz(Z, Xmu, Xcov)` after slicing:
`KzxKxz = expand_dims(Kxz, 3) * expand_dims(Kxz, 2)` summed against the
weights. -/
def eKzxKxz (k : (ℕ → ℝ) → (ℕ → ℝ) → ℝ) (ghx ghw : ℕ → ℝ)
    (chol : (ℕ → ℕ → ℕ → ℝ) → ℕ → ℕ → ℕ → ℝ) (H D N : ℕ)
    (Xmu : ℕ → ℕ → ℝ) (Xcov : ℕ → ℕ → ℕ → ℝ) (Z : ℕ → ℕ → ℝ)
    (n m mp : ℕ) : ℝ :=
  ∑ g ∈ Finset.range (H ^ D),
    k (mvh_Xr ghx H D N (chol Xcov) Xmu (g * N + n)) (Z m) *
      k (mvh_Xr ghx H D N (chol Xcov) Xmu (g * N + n)) (Z mp) * mvh_w ghw H D g

/-- Block `fXmu = tf.concat(1, (Xmu[:-1, :], Xmu[1:, :]))` in `exKxz`. -/
def exk_fXmu (D : ℕ) (Xmu : ℕ → ℕ → ℝ) (t j : ℕ) : ℝ :=
  if j < D then Xmu t j else Xmu (t + 1) (j - D)

/-- The `2D × 2D` joint covariance of `(x_t, x_{t+1})` assembled in `exKxz`
from the compact `Xcov` (`fXcov` from `fXcovt` and `fXcovb`). -/
def exk_fXcov (D : ℕ) (Xcov : ℕ → ℕ → ℕ → ℕ → ℝ) (t i j : ℕ) : ℝ :=
  if i < D then
    (if j < D then Xcov 0 t i j else Xcov 1 t i (j - D))
  else
    (if j < D then Xcov 1 t j (i - D) else Xcov 0 (t + 1) (i - D) (j - D))

/-- Method `Kern.exKxz(Z, Xmu, Xcov)` (no slicing; `D` is the input size, `N` the
number of consecutive pairs).  The kernel is applied to the first `D` columns
of the eval points (`self.K(X[:, :D], Z)`, so `k` here is the *unsliced*
entrywise `K`), and the result couples the last `D` columns with `Kxz`. -/
def exKxz (k : (ℕ → ℝ) → (ℕ → ℝ) → ℝ) (ghx ghw : ℕ → ℝ)
    (chol : (ℕ → ℕ → ℕ → ℝ) → ℕ → ℕ → ℕ → ℝ) (H D N : ℕ)
    (Xmu : ℕ → ℕ → ℝ) (Xcov : ℕ → ℕ → ℕ → ℕ → ℝ) (Z : ℕ → ℕ → ℝ)
    (t m d : ℕ) : ℝ :=
  ∑ g ∈ Finset.range (H ^ (2 * D)),
    mvh_Xr ghx H (2 * D) N (chol (exk_fXcov D Xcov)) (exk_fXmu D Xmu)
        (g * N + t) (D + d) *
      k (fun c =>
          if c < D then
            mvh_Xr ghx H (2 * D) N (chol (exk_fXcov D Xcov)) (exk_fXmu D Xmu)
              (g * N + t) c
          else 0)
        (Z m) * mvh_w ghw H (2 * D) g

/-! ### `_check_quadrature` and the quadrature methods as raising methods -/

/-- The warning text of `_check_quadrature` (the `%s` class name elided). -/
def quadWarnMsg : String :=
  "Using numerical quadrature for kernel expectation. Use GPflow.ekernels instead."

/-- The `RuntimeError` message of `_check_quadrature`. -/
def quadErrMsg : String := "Settings indicate that quadrature may not be used."

/-- Method `Kern._check_quadrature()`: first, if
`settings.numerics.ekern_quadrature == "warn"`, a warning is emitted; then, if
the setting is `"error"` or `num_gauss_hermite_points == 0`, a `RuntimeError`
is raised.  Result: (warnings emitted, error raised if any). -/
def check_quadrature (ekern_quadrature : String) (num_gauss_hermite_points : ℕ) :
    List String × Option String :=
  ((if ekern_quadrature = "warn" then [quadWarnMsg] else []),
   if ekern_quadrature = "error" ∨ num_gauss_hermite_points = 0 then some quadErrMsg
   else none)

/-- The shared shape of the four quadrature methods: `_check_quadrature()`
runs first; if it raises, the method's computation does not happen and the
exception is the outcome, otherwise the method's value is returned.  The
warnings emitted are carried alongside. -/
def quadMethod {α : Type} (ekern_quadrature : String)
    (num_gauss_hermite_points : ℕ) (body : α) : List String × Except String α :=
  ((check_quadrature ekern_quadrature num_gauss_hermite_points).1,
   match (check_quadrature ekern_quadrature num_gauss_hermite_points).2 with
   | some e => .error e
   | none => .ok body)

/-- Method `Kern.eKdiag` as a raising method (`H = self.num_gauss_hermite_points`). -/
def eKdiag_method (ekern_quadrature : String) (num_gauss_hermite_points : ℕ)
    (kdiag : (ℕ → ℝ) → ℝ) (ghx ghw : ℕ → ℝ)
    (chol : (ℕ → ℕ → ℕ → ℝ) → ℕ → ℕ → ℕ → ℝ) (D N : ℕ)
    (Xmu : ℕ → ℕ → ℝ) (Xcov : ℕ → ℕ → ℕ → ℝ) :
    List String × Except String (ℕ → ℝ) :=
  quadMethod ekern_quadrature num_gauss_hermite_points
    (eKdiag kdiag ghx ghw chol num_gauss_hermite_points D N Xmu Xcov)

/-- Method `Kern.eKxz` as a raising method. -/
def eKxz_method (ekern_quadrature : String) (num_gauss_hermite_points : ℕ)
    (k : (ℕ → ℝ) → (ℕ → ℝ) → ℝ) (ghx ghw : ℕ → ℝ)
    (chol : (ℕ → ℕ → ℕ → ℝ) → ℕ → ℕ → ℕ → ℝ) (D N : ℕ)
    (Xmu : ℕ → ℕ → ℝ) (Xcov : ℕ → ℕ → ℕ → ℝ) (Z : ℕ → ℕ → ℝ) :
    List String × Except String (ℕ → ℕ → ℝ) :=
  quadMethod ekern_quadrature num_gauss_hermite_points
    (eKxz k ghx ghw chol num_gauss_hermite_points D N Xmu Xcov Z)

/-- Method `Kern.exKxz` as a raising method. -/
def exKxz_method (ekern_quadrature : String) (num_gauss_hermite_points : ℕ)
    (k : (ℕ → ℝ) → (ℕ → ℝ) → ℝ) (ghx ghw : ℕ → ℝ)
    (chol : (ℕ → ℕ → ℕ → ℝ) → ℕ → ℕ → ℕ → ℝ) (D N : ℕ)
    (Xmu : ℕ → ℕ → ℝ) (Xcov : ℕ → ℕ → ℕ → ℕ → ℝ) (Z : ℕ → ℕ → ℝ) :
    List String × Except String (ℕ → ℕ → ℕ → ℝ) :=
  quadMethod ekern_quadrature num_gauss_hermite_points
    (exKxz k ghx ghw chol num_gauss_hermite_points D N Xmu Xcov Z)

/-- Method `Kern.eKzxKxz` as a raising method. -/
def eKzxKxz_method (ekern_quadrature : String) (num_gauss_hermite_points : ℕ)
    (k : (ℕ → ℝ) → (ℕ → ℝ) → ℝ) (ghx ghw : ℕ → ℝ)
    (chol : (ℕ → ℕ → ℕ → ℝ) → ℕ → ℕ → ℕ → ℝ) (D N : ℕ)
    (Xmu : ℕ → ℕ → ℝ) (Xcov : ℕ → ℕ → ℕ → ℝ) (Z : ℕ → ℕ → ℝ) :
    List String × Except String (ℕ → ℕ → ℕ → ℝ) :=
  quadMethod ekern_quadrature num_gauss_hermite_points
    (eKzxKxz k ghx ghw chol num_gauss_hermite_points D N Xmu Xcov Z)

/-- The quadrature expectation `eKxz` as the claim states it: a sum over the
Cartesian-product grid `t` of `D`-tuples of 1-D Hermite-Gauss node indices,
with weight `pi^(-D/2)` times the product of the `D` corresponding 1-D
weights, of the kernel evaluated at `Xmu[n] + sqrt 2 * chol(Xcov)[n] * x_t`
against `Z[m]`. -/
def eKxzQuadSpec (k : (ℕ → ℝ) → (ℕ → ℝ) → ℝ) (ghx ghw : ℕ → ℝ)
    (chol : (ℕ → ℕ → ℕ → ℝ) → ℕ → ℕ → ℕ → ℝ) (H D : ℕ)
    (Xmu : ℕ → ℕ → ℝ) (Xcov : ℕ → ℕ → ℕ → ℝ) (Z : ℕ → ℕ → ℝ) (n m : ℕ) : ℝ :=
  ∑ t : Fin D → Fin H,
    (Real.pi ^ (-(D : ℝ) / 2) * ∏ e : Fin D, ghw (t e)) *
      k (fun d => Xmu n d +
          Real.sqrt 2 * ∑ e : Fin D, chol Xcov n d e * ghx (t e))
        (Z m)

/-! ### Helper lemmas -/

theorem square_dist_eq_naive (ℓ : ℕ → ℝ) (d : ℕ) (x y : ℕ → ℝ) :
    square_dist ℓ d x y = ∑ c ∈ Finset.range d, ((x c - y c) / ℓ c) ^ 2 := by
  have h : ∀ c : ℕ, ((x c - y c) / ℓ c) ^ 2
      = -2 * ((x c / ℓ c) * (y c / ℓ c)) + ((x c / ℓ c) ^ 2 + (y c / ℓ c) ^ 2) := by
    intro c; rw [sub_div]; ring
  rw [Finset.sum_congr rfl fun c _ => h c, Finset.sum_add_distrib,
    Finset.sum_add_distrib, ← Finset.mul_sum, square_dist, add_assoc]

/-! ### C6, C9, C10 -/

/-- C6: the optimized `square_dist` (`-2 X X2ᵀ` plus broadcast row/column
sums of squares, after dividing the inputs by the lengthscales) equals the
naive closed form `∑_d ((x_d - y_d) / ℓ_d)²` for every pair of rows — also in
the `X2 is None` branch, where both rows come from `X` — and consequently
`RBF.K(X, X2)[i, j] = variance * exp(-square_dist[i, j] / 2)` on the sliced
rows. -/
theorem square_dist_refines_naive (ℓ : ℕ → ℝ) (d : ℕ) :
    (∀ x y : ℕ → ℝ,
       square_dist ℓ d x y = ∑ c ∈ Finset.range d, ((x c - y c) / ℓ c) ^ 2)
  ∧ ∀ (input_dim : ℕ) (variance : ℝ) (a : ActiveDims) (X X2 : ℕ → ℕ → ℝ)
      (i j : ℕ),
      Kern.K2 X X2 (RBF input_dim variance ℓ a) i j
          = variance * Real.exp (-(∑ c ∈ Finset.range input_dim,
              ((sliceRow a (X i) c - sliceRow a (X2 j) c) / ℓ c) ^ 2) / 2)
        ∧ Kern.Ksymm X (RBF input_dim variance ℓ a) i j
          = variance * Real.exp (-(∑ c ∈ Finset.range input_dim,
              ((sliceRow a (X i) c - sliceRow a (X j) c) / ℓ c) ^ 2) / 2) := by
  refine ⟨fun x y => square_dist_eq_naive ℓ d x y, ?_⟩
  intro input_dim variance a X X2 i j
  constructor
  · simp only [Kern.K2, RBF, baseEntry, square_dist_eq_naive]
  · simp [Kern.Ksymm, RBF, baseEntry, square_dist_eq_naive]

/-- C9: every `Stationary` kernel (RBF, Exponential, Matern12/32/52, Cosine)
and every `Static` kernel (White, Constant/Bias) fills `Kdiag(X)` with its
variance parameter, independently of the values in `X`. -/
theorem stationary_static_Kdiag_eq_variance (b : BaseKern)
    (h : b.cls ∈ [KClass.rbf, KClass.exponential, KClass.matern12,
      KClass.matern32, KClass.matern52, KClass.cosine, KClass.white,
      KClass.constant]) (X : ℕ → ℕ → ℝ) (i : ℕ) :
    Kern.Kdiag X (.base b) i = b.variance := by
  simp only [List.mem_cons, List.not_mem_nil, or_false] at h
  rcases h with h | h | h | h | h | h | h | h <;>
    simp [Kern.Kdiag, baseDiag, h]

/-- Witness for C9 at a concrete stationary kernel and input. -/
theorem stationary_static_Kdiag_eq_variance_witness :
    Kern.Kdiag (fun i j => (i : ℝ) + j)
        (.base { cls := KClass.rbf, input_dim := 2,
                 active_dims := ActiveDims.whole 2 }) 0 = 1 :=
  stationary_static_Kdiag_eq_variance _ (by decide) _ 0

/-- C10: `White.K(X, X2)` with `X2` provided is identically zero, while
`White.K(X)` with `X2` omitted is the diagonal matrix with the variance on
the diagonal. -/
theorem white_K_zero_offdiag (input_dim : ℕ) (variance : ℝ) (a : ActiveDims)
    (X X2 : ℕ → ℕ → ℝ) (i j : ℕ) :
    Kern.K2 X X2 (White input_dim variance a) i j = 0
  ∧ Kern.Ksymm X (White input_dim variance a) i j
      = (if i = j then variance else 0) := by
  constructor <;> simp [Kern.K2, Kern.Ksymm, White, baseEntry]

/-! ### C8: `_check_quadrature` gating of the four quadrature methods -/

/-- C8: each quadrature method (`eKdiag`, `eKxz`, `exKxz`, `eKzxKxz`) runs
`_check_quadrature` before its computation: it raises the `RuntimeError`
exactly when `settings.numerics.ekern_quadrature == "error"` or
`num_gauss_hermite_points == 0` (in which case no value is computed);
otherwise it returns its quadrature value; and a warning is emitted exactly
when the setting is `"warn"`. -/
theorem quadrature_methods_check_first (s : String) (ngh : ℕ)
    (kdiag : (ℕ → ℝ) → ℝ) (k : (ℕ → ℝ) → (ℕ → ℝ) → ℝ) (ghx ghw : ℕ → ℝ)
    (chol : (ℕ → ℕ → ℕ → ℝ) → ℕ → ℕ → ℕ → ℝ) (D N : ℕ)
    (Xmu : ℕ → ℕ → ℝ) (Xcov : ℕ → ℕ → ℕ → ℝ) (Xcov2 : ℕ → ℕ → ℕ → ℕ → ℝ)
    (Z : ℕ → ℕ → ℝ) :
    ((eKdiag_method s ngh kdiag ghx ghw chol D N Xmu Xcov).2 = .error quadErrMsg
      ↔ (s = "error" ∨ ngh = 0))
  ∧ ((eKxz_method s ngh k ghx ghw chol D N Xmu Xcov Z).2 = .error quadErrMsg
      ↔ (s = "error" ∨ ngh = 0))
  ∧ ((exKxz_method s ngh k ghx ghw chol D N Xmu Xcov2 Z).2 = .error quadErrMsg
      ↔ (s = "error" ∨ ngh = 0))
  ∧ ((eKzxKxz_method s ngh k ghx ghw chol D N Xmu Xcov Z).2 = .error quadErrMsg
      ↔ (s = "error" ∨ ngh = 0))
  ∧ (¬(s = "error" ∨ ngh = 0) →
      (eKdiag_method s ngh kdiag ghx ghw chol D N Xmu Xcov).2
          = .ok (eKdiag kdiag ghx ghw chol ngh D N Xmu Xcov)
        ∧ (eKxz_method s ngh k ghx ghw chol D N Xmu Xcov Z).2
          = .ok (eKxz k ghx ghw chol ngh D N Xmu Xcov Z)
        ∧ (exKxz_method s ngh k ghx ghw chol D N Xmu Xcov2 Z).2
          = .ok (exKxz k ghx ghw chol ngh D N Xmu Xcov2 Z)
        ∧ (eKzxKxz_method s ngh k ghx ghw chol D N Xmu Xcov Z).2
          = .ok (eKzxKxz k ghx ghw chol ngh D N Xmu Xcov Z))
  ∧ (eKdiag_method s ngh kdiag ghx ghw chol D N Xmu Xcov).1
      = (if s = "warn" then [quadWarnMsg] else [])
  ∧ (eKxz_method s ngh k ghx ghw chol D N Xmu Xcov Z).1
      = (if s = "warn" then [quadWarnMsg] else [])
  ∧ (exKxz_method s ngh k ghx ghw chol D N Xmu Xcov2 Z).1
      = (if s = "warn" then [quadWarnMsg] else [])
  ∧ (eKzxKxz_method s ngh k ghx ghw chol D N Xmu Xcov Z).1
      = (if s = "warn" then [quadWarnMsg] else []) := by
  by_cases h : s = "error" ∨ ngh = 0 <;>
    simp [eKdiag_method, eKxz_method, exKxz_method, eKzxKxz_method,
      quadMethod, check_quadrature, h]

/-! ### Lemmas on the combination machinery -/

theorem K2list_eq_map (X X2 : ℕ → ℕ → ℝ) (ks : List Kern) :
    K2list X X2 ks = ks.map (Kern.K2 X X2) := by
  induction ks with
  | nil => rfl
  | cons k t ih => simp [K2list, ih]

theorem Ksymmlist_eq_map (X : ℕ → ℕ → ℝ) (ks : List Kern) :
    Ksymmlist X ks = ks.map (Kern.Ksymm X) := by
  induction ks with
  | nil => rfl
  | cons k t ih => simp [Ksymmlist, ih]

theorem Kdiaglist_eq_map (X : ℕ → ℕ → ℝ) (ks : List Kern) :
    Kdiaglist X ks = ks.map (Kern.Kdiag X) := by
  induction ks with
  | nil => rfl
  | cons k t ih => simp [Kdiaglist, ih]

theorem foldl_op_shift {M : Type} (op : M → M → M)
    (hassoc : ∀ a b c : M, op (op a b) c = op a (op b c)) (l : List M) :
    ∀ x y : M, l.foldl op (op x y) = op x (l.foldl op y) := by
  induction l with
  | nil => intro x y; rfl
  | cons h t ih => intro x y; simp only [List.foldl]; rw [hassoc]; exact ih x (op y h)

theorem reduceAdd_append (A B : List (ℕ → ℕ → ℝ)) (hA : A ≠ []) (hB : B ≠ []) :
    reduceAdd (A ++ B) = reduceAdd A + reduceAdd B := by
  obtain ⟨a, t, rfl⟩ := List.exists_cons_of_ne_nil hA
  obtain ⟨b, s, rfl⟩ := List.exists_cons_of_ne_nil hB
  simp only [reduceAdd, List.cons_append, List.foldl_append, List.foldl]
  exact foldl_op_shift _ (fun x y z => add_assoc x y z) s _ b

theorem reduceMul_append (A B : List (ℕ → ℕ → ℝ)) (hA : A ≠ []) (hB : B ≠ []) :
    reduceMul (A ++ B) = reduceMul A * reduceMul B := by
  obtain ⟨a, t, rfl⟩ := List.exists_cons_of_ne_nil hA
  obtain ⟨b, s, rfl⟩ := List.exists_cons_of_ne_nil hB
  simp only [reduceMul, List.cons_append, List.foldl_append, List.foldl]
  exact foldl_op_shift _ (fun x y z => mul_assoc x y z) s _ b

theorem reduceAddV_append (A B : List (ℕ → ℝ)) (hA : A ≠ []) (hB : B ≠ []) :
    reduceAddV (A ++ B) = reduceAddV A + reduceAddV B := by
  obtain ⟨a, t, rfl⟩ := List.exists_cons_of_ne_nil hA
  obtain ⟨b, s, rfl⟩ := List.exists_cons_of_ne_nil hB
  simp only [reduceAddV, List.cons_append, List.foldl_append, List.foldl]
  exact foldl_op_shift _ (fun x y z => add_assoc x y z) s _ b

theorem reduceMulV_append (A B : List (ℕ → ℝ)) (hA : A ≠ []) (hB : B ≠ []) :
    reduceMulV (A ++ B) = reduceMulV A * reduceMulV B := by
  obtain ⟨a, t, rfl⟩ := List.exists_cons_of_ne_nil hA
  obtain ⟨b, s, rfl⟩ := List.exists_cons_of_ne_nil hB
  simp only [reduceMulV, List.cons_append, List.foldl_append, List.foldl]
  exact foldl_op_shift _ (fun x y z => mul_assoc x y z) s _ b

theorem spliceAdd_ne_nil {k : Kern} (h : WF k) : spliceAdd k ≠ [] := by
  cases h with
  | base b hb => simp [spliceAdd]
  | add input_dim ks hne hwf hflat hdim => simpa [spliceAdd] using hne
  | prod input_dim ks hne hwf hflat hdim => simp [spliceAdd]

theorem spliceProd_ne_nil {k : Kern} (h : WF k) : spliceProd k ≠ [] := by
  cases h with
  | base b hb => simp [spliceProd]
  | add input_dim ks hne hwf hflat hdim => simp [spliceProd]
  | prod input_dim ks hne hwf hflat hdim => simpa [spliceProd] using hne

theorem reduceAdd_K2_spliceAdd (X X2 : ℕ → ℕ → ℝ) (k : Kern) :
    reduceAdd (K2list X X2 (spliceAdd k)) = Kern.K2 X X2 k := by
  cases k <;> rfl

theorem reduceAdd_Ksymm_spliceAdd (X : ℕ → ℕ → ℝ) (k : Kern) :
    reduceAdd (Ksymmlist X (spliceAdd k)) = Kern.Ksymm X k := by
  cases k <;> rfl

theorem reduceAddV_Kdiag_spliceAdd (X : ℕ → ℕ → ℝ) (k : Kern) :
    reduceAddV (Kdiaglist X (spliceAdd k)) = Kern.Kdiag X k := by
  cases k <;> rfl

theorem reduceMul_K2_spliceProd (X X2 : ℕ → ℕ → ℝ) (k : Kern) :
    reduceMul (K2list X X2 (spliceProd k)) = Kern.K2 X X2 k := by
  cases k <;> rfl

theorem reduceMul_Ksymm_spliceProd (X : ℕ → ℕ → ℝ) (k : Kern) :
    reduceMul (Ksymmlist X (spliceProd k)) = Kern.Ksymm X k := by
  cases k <;> rfl

theorem reduceMulV_Kdiag_spliceProd (X : ℕ → ℕ → ℝ) (k : Kern) :
    reduceMulV (Kdiaglist X (spliceProd k)) = Kern.Kdiag X k := by
  cases k <;> rfl

theorem listMax_cons (a : ℕ) (l : List ℕ) : listMax (a :: l) = max a (listMax l) := rfl

theorem le_listMax_of_mem {l : List ℕ} {a : ℕ} (h : a ∈ l) : a ≤ listMax l := by
  induction l with
  | nil => cases h
  | cons b t ih =>
    rw [listMax_cons]
    rcases List.mem_cons.mp h with h | h
    · exact h ▸ le_max_left _ _
    · exact le_trans (ih h) (le_max_right _ _)

theorem listMax_append (A B : List ℕ) :
    listMax (A ++ B) = max (listMax A) (listMax B) := by
  induction A with
  | nil => simp [listMax]
  | cons a t ih =>
    rw [List.cons_append, listMax_cons, listMax_cons, ih, max_assoc]

/-! ### C3 and C4: the Add and Prod combinators -/

/-- C3: `k1 + k2` constructs `Add([k1, k2])`, whose `K` and `Kdiag` are the
elementwise sums of the children's — in both the `X2` given and `X2 = None`
branches of `K`. -/
theorem add_combinator (k1 k2 : Kern) (h1 : WF k1) (h2 : WF k2)
    (X X2 : ℕ → ℕ → ℝ) :
    k1 + k2 = mkAdd [k1, k2]
  ∧ Kern.K2 X X2 (k1 + k2) = Kern.K2 X X2 k1 + Kern.K2 X X2 k2
  ∧ Kern.Ksymm X (k1 + k2) = Kern.Ksymm X k1 + Kern.Ksymm X k2
  ∧ Kern.Kdiag X (k1 + k2) = Kern.Kdiag X k1 + Kern.Kdiag X k2 := by
  have hsplice : [k1, k2].flatMap spliceAdd = spliceAdd k1 ++ spliceAdd k2 := by
    simp
  have hnil1 : K2list X X2 (spliceAdd k1) ≠ [] := by
    simpa [K2list_eq_map] using spliceAdd_ne_nil h1
  have hnil2 : K2list X X2 (spliceAdd k2) ≠ [] := by
    simpa [K2list_eq_map] using spliceAdd_ne_nil h2
  have hsnil1 : Ksymmlist X (spliceAdd k1) ≠ [] := by
    simpa [Ksymmlist_eq_map] using spliceAdd_ne_nil h1
  have hsnil2 : Ksymmlist X (spliceAdd k2) ≠ [] := by
    simpa [Ksymmlist_eq_map] using spliceAdd_ne_nil h2
  have hdnil1 : Kdiaglist X (spliceAdd k1) ≠ [] := by
    simpa [Kdiaglist_eq_map] using spliceAdd_ne_nil h1
  have hdnil2 : Kdiaglist X (spliceAdd k2) ≠ [] := by
    simpa [Kdiaglist_eq_map] using spliceAdd_ne_nil h2
  refine ⟨rfl, ?_, ?_, ?_⟩
  · show Kern.K2 X X2 (mkAdd [k1, k2]) = _
    rw [mkAdd, hsplice, Kern.K2, K2list_eq_map, List.map_append,
      ← K2list_eq_map, ← K2list_eq_map, reduceAdd_append _ _ hnil1 hnil2,
      reduceAdd_K2_spliceAdd, reduceAdd_K2_spliceAdd]
  · show Kern.Ksymm X (mkAdd [k1, k2]) = _
    rw [mkAdd, hsplice, Kern.Ksymm, Ksymmlist_eq_map, List.map_append,
      ← Ksymmlist_eq_map, ← Ksymmlist_eq_map, reduceAdd_append _ _ hsnil1 hsnil2,
      reduceAdd_Ksymm_spliceAdd, reduceAdd_Ksymm_spliceAdd]
  · show Kern.Kdiag X (mkAdd [k1, k2]) = _
    rw [mkAdd, hsplice, Kern.Kdiag, Kdiaglist_eq_map, List.map_append,
      ← Kdiaglist_eq_map, ← Kdiaglist_eq_map, reduceAddV_append _ _ hdnil1 hdnil2,
      reduceAddV_Kdiag_spliceAdd, reduceAddV_Kdiag_spliceAdd]

/-- Witness for C3 at two concrete kernels and concrete inputs. -/
theorem add_combinator_witness :
    Kern.K2 (fun _ _ => 1) (fun _ _ => 2)
        (RBF 1 1 (fun _ => 1) (ActiveDims.whole 1) + White 1 1 (ActiveDims.whole 1))
      = Kern.K2 (fun _ _ => 1) (fun _ _ => 2) (RBF 1 1 (fun _ => 1) (ActiveDims.whole 1))
        + Kern.K2 (fun _ _ => 1) (fun _ _ => 2) (White 1 1 (ActiveDims.whole 1)) := by
  exact (add_combinator (RBF 1 1 (fun _ => 1) (ActiveDims.whole 1))
    (White 1 1 (ActiveDims.whole 1)) (WF.base _ rfl) (WF.base _ rfl) _ _).2.1

/-- C4: `k1 * k2` constructs `Prod([k1, k2])`, whose `K` and `Kdiag` are the
elementwise (Hadamard) products of the children's — in both branches of
`K`. -/
theorem prod_combinator (k1 k2 : Kern) (h1 : WF k1) (h2 : WF k2)
    (X X2 : ℕ → ℕ → ℝ) :
    k1 * k2 = mkProd [k1, k2]
  ∧ Kern.K2 X X2 (k1 * k2) = Kern.K2 X X2 k1 * Kern.K2 X X2 k2
  ∧ Kern.Ksymm X (k1 * k2) = Kern.Ksymm X k1 * Kern.Ksymm X k2
  ∧ Kern.Kdiag X (k1 * k2) = Kern.Kdiag X k1 * Kern.Kdiag X k2 := by
  have hsplice : [k1, k2].flatMap spliceProd = spliceProd k1 ++ spliceProd k2 := by
    simp
  have hnil1 : K2list X X2 (spliceProd k1) ≠ [] := by
    simpa [K2list_eq_map] using spliceProd_ne_nil h1
  have hnil2 : K2list X X2 (spliceProd k2) ≠ [] := by
    simpa [K2list_eq_map] using spliceProd_ne_nil h2
  have hsnil1 : Ksymmlist X (spliceProd k1) ≠ [] := by
    simpa [Ksymmlist_eq_map] using spliceProd_ne_nil h1
  have hsnil2 : Ksymmlist X (spliceProd k2) ≠ [] := by
    simpa [Ksymmlist_eq_map] using spliceProd_ne_nil h2
  have hdnil1 : Kdiaglist X (spliceProd k1) ≠ [] := by
    simpa [Kdiaglist_eq_map] using spliceProd_ne_nil h1
  have hdnil2 : Kdiaglist X (spliceProd k2) ≠ [] := by
    simpa [Kdiaglist_eq_map] using spliceProd_ne_nil h2
  refine ⟨rfl, ?_, ?_, ?_⟩
  · show Kern.K2 X X2 (mkProd [k1, k2]) = _
    rw [mkProd, hsplice, Kern.K2, K2list_eq_map, List.map_append,
      ← K2list_eq_map, ← K2list_eq_map, reduceMul_append _ _ hnil1 hnil2,
      reduceMul_K2_spliceProd, reduceMul_K2_spliceProd]
  · show Kern.Ksymm X (mkProd [k1, k2]) = _
    rw [mkProd, hsplice, Kern.Ksymm, Ksymmlist_eq_map, List.map_append,
      ← Ksymmlist_eq_map, ← Ksymmlist_eq_map, reduceMul_append _ _ hsnil1 hsnil2,
      reduceMul_Ksymm_spliceProd, reduceMul_Ksymm_spliceProd]
  · show Kern.Kdiag X (mkProd [k1, k2]) = _
    rw [mkProd, hsplice, Kern.Kdiag, Kdiaglist_eq_map, List.map_append,
      ← Kdiaglist_eq_map, ← Kdiaglist_eq_map, reduceMulV_append _ _ hdnil1 hdnil2,
      reduceMulV_Kdiag_spliceProd, reduceMulV_Kdiag_spliceProd]

/-- Witness for C4 at two concrete kernels and concrete inputs. -/
theorem prod_combinator_witness :
    Kern.K2 (fun _ _ => 1) (fun _ _ => 2)
        (RBF 1 1 (fun _ => 1) (ActiveDims.whole 1) * White 1 1 (ActiveDims.whole 1))
      = Kern.K2 (fun _ _ => 1) (fun _ _ => 2) (RBF 1 1 (fun _ => 1) (ActiveDims.whole 1))
        * Kern.K2 (fun _ _ => 1) (fun _ _ => 2) (White 1 1 (ActiveDims.whole 1)) := by
  exact (prod_combinator (RBF 1 1 (fun _ => 1) (ActiveDims.whole 1))
    (White 1 1 (ActiveDims.whole 1)) (WF.base _ rfl) (WF.base _ rfl) _ _).2.1

/-! ### C7: the Combination invariant -/

theorem contrib_spliceAdd {k : Kern} (h : WF k) :
    listMax ((spliceAdd k).map contrib) = contrib k := by
  cases h with
  | base b hb => simp [spliceAdd, listMax_cons, listMax]
  | add input_dim ks hne hwf hflat hdim => simp [spliceAdd, contrib, hdim]
  | prod input_dim ks hne hwf hflat hdim => simp [spliceAdd, listMax_cons, listMax]

theorem contrib_spliceProd {k : Kern} (h : WF k) :
    listMax ((spliceProd k).map contrib) = contrib k := by
  cases h with
  | base b hb => simp [spliceProd, listMax_cons, listMax]
  | add input_dim ks hne hwf hflat hdim => simp [spliceProd, listMax_cons, listMax]
  | prod input_dim ks hne hwf hflat hdim => simp [spliceProd, contrib, hdim]

theorem listMax_contrib_flatMap_spliceAdd (ks : List Kern)
    (hwf : ∀ k ∈ ks, WF k) :
    listMax ((ks.flatMap spliceAdd).map contrib) = listMax (ks.map contrib) := by
  induction ks with
  | nil => rfl
  | cons k t ih =>
    rw [List.flatMap_cons, List.map_append, listMax_append,
      contrib_spliceAdd (hwf k (by simp)), List.map_cons, listMax_cons,
      ih fun k' h' => hwf k' (by simp [h'])]

theorem listMax_contrib_flatMap_spliceProd (ks : List Kern)
    (hwf : ∀ k ∈ ks, WF k) :
    listMax ((ks.flatMap spliceProd).map contrib) = listMax (ks.map contrib) := by
  induction ks with
  | nil => rfl
  | cons k t ih =>
    rw [List.flatMap_cons, List.map_append, listMax_append,
      contrib_spliceProd (hwf k (by simp)), List.map_cons, listMax_cons,
      ih fun k' h' => hwf k' (by simp [h'])]

/-- C7: `Combination.__init__` (for both `Add` and `Prod`) maintains a
flattened `kern_list` — no element is an instance of the same combination
subclass — and the stored `input_dim` is the maximum, over the children, of
`input_dim` (for slice-typed `active_dims`) respectively
`max(active_dims) + 1` (for array-typed ones); this maximum over the
flattened `kern_list` agrees with the maximum over the constructor's
argument list. -/
theorem combination_flattened_and_input_dim (ks : List Kern) (hne : ks ≠ [])
    (hwf : ∀ k ∈ ks, WF k) :
    (∀ k' ∈ (mkAdd ks).kern_list, k'.isAdd = false)
  ∧ (∀ k' ∈ (mkProd ks).kern_list, k'.isProd = false)
  ∧ (mkAdd ks).input_dim = listMax ((mkAdd ks).kern_list.map contrib)
  ∧ (mkProd ks).input_dim = listMax ((mkProd ks).kern_list.map contrib)
  ∧ WF (mkAdd ks) ∧ WF (mkProd ks) := by
  have hflatA : ∀ k' ∈ (mkAdd ks).kern_list, k'.isAdd = false := by
    intro k' hk'
    simp only [mkAdd, Kern.kern_list, List.mem_flatMap] at hk'
    obtain ⟨k, hk, hmem⟩ := hk'
    cases k with
    | base b => simp only [spliceAdd, List.mem_singleton] at hmem
                subst hmem; rfl
    | add input_dim l =>
        cases hwf _ hk with
        | add _ _ _ _ hflat _ => exact hflat _ hmem
    | prod input_dim l => simp only [spliceAdd, List.mem_singleton] at hmem
                          subst hmem; rfl
  have hflatP : ∀ k' ∈ (mkProd ks).kern_list, k'.isProd = false := by
    intro k' hk'
    simp only [mkProd, Kern.kern_list, List.mem_flatMap] at hk'
    obtain ⟨k, hk, hmem⟩ := hk'
    cases k with
    | base b => simp only [spliceProd, List.mem_singleton] at hmem
                subst hmem; rfl
    | prod input_dim l =>
        cases hwf _ hk with
        | prod _ _ _ _ hflat _ => exact hflat _ hmem
    | add input_dim l => simp only [spliceProd, List.mem_singleton] at hmem
                         subst hmem; rfl
  have hdimA : (mkAdd ks).input_dim = listMax ((mkAdd ks).kern_list.map contrib) := by
    simp only [mkAdd, Kern.input_dim, Kern.kern_list]
    exact (listMax_contrib_flatMap_spliceAdd ks hwf).symm
  have hdimP : (mkProd ks).input_dim = listMax ((mkProd ks).kern_list.map contrib) := by
    simp only [mkProd, Kern.input_dim, Kern.kern_list]
    exact (listMax_contrib_flatMap_spliceProd ks hwf).symm
  have hmemA : ∀ k' ∈ ks.flatMap spliceAdd, WF k' := by
    intro k' hk'
    obtain ⟨k, hk, hmem⟩ := List.mem_flatMap.mp hk'
    cases k with
    | base b => simp only [spliceAdd, List.mem_singleton] at hmem
                subst hmem; exact hwf _ hk
    | add input_dim l =>
        cases hwf _ hk with
        | add _ _ _ hwfl _ _ => exact hwfl _ hmem
    | prod input_dim l => simp only [spliceAdd, List.mem_singleton] at hmem
                          subst hmem; exact hwf _ hk
  have hmemP : ∀ k' ∈ ks.flatMap spliceProd, WF k' := by
    intro k' hk'
    obtain ⟨k, hk, hmem⟩ := List.mem_flatMap.mp hk'
    cases k with
    | base b => simp only [spliceProd, List.mem_singleton] at hmem
                subst hmem; exact hwf _ hk
    | prod input_dim l =>
        cases hwf _ hk with
        | prod _ _ _ hwfl _ _ => exact hwfl _ hmem
    | add input_dim l => simp only [spliceProd, List.mem_singleton] at hmem
                         subst hmem; exact hwf _ hk
  have hneA : ks.flatMap spliceAdd ≠ [] := by
    obtain ⟨k, t, rfl⟩ := List.exists_cons_of_ne_nil hne
    simp only [List.flatMap_cons, ne_eq, List.append_eq_nil]
    intro ⟨h1, _⟩
    exact spliceAdd_ne_nil (hwf k (by simp)) h1
  have hneP : ks.flatMap spliceProd ≠ [] := by
    obtain ⟨k, t, rfl⟩ := List.exists_cons_of_ne_nil hne
    simp only [List.flatMap_cons, ne_eq, List.append_eq_nil]
    intro ⟨h1, _⟩
    exact spliceProd_ne_nil (hwf k (by simp)) h1
  refine ⟨hflatA, hflatP, hdimA, hdimP, ?_, ?_⟩
  · exact WF.add _ _ hneA hmemA hflatA
      (by simpa [mkAdd, Kern.kern_list] using hdimA)
  · exact WF.prod _ _ hneP hmemP hflatP
      (by simpa [mkProd, Kern.kern_list] using hdimP)

/-- Witness for C7 at a concrete two-element kernel list containing a nested
`Add`. -/
theorem combination_flattened_and_input_dim_witness :
    (mkAdd [mkAdd [White 1 1 (ActiveDims.whole 1),
        Constant 2 1 (ActiveDims.whole 2)],
        RBF 1 1 (fun _ => 1) (ActiveDims.whole 1)]).input_dim
      = listMax ((mkAdd [mkAdd [White 1 1 (ActiveDims.whole 1),
          Constant 2 1 (ActiveDims.whole 2)],
          RBF 1 1 (fun _ => 1) (ActiveDims.whole 1)]).kern_list.map contrib) := by
  refine (combination_flattened_and_input_dim _ (by simp) ?_).2.2.1
  intro k hk
  simp only [List.mem_cons, List.not_mem_nil, or_false] at hk
  rcases hk with rfl | rfl
  · exact (combination_flattened_and_input_dim
      [White 1 1 (ActiveDims.whole 1), Constant 2 1 (ActiveDims.whole 2)]
      (by simp)
      (by intro k hk
          simp only [List.mem_cons, List.not_mem_nil, or_false] at hk
          rcases hk with rfl | rfl <;> exact WF.base _ rfl)).2.2.2.2.1
  · exact WF.base _ rfl

/-! ### C5: active-dimension slicing as a noninterference property -/

theorem sliceRow_congr (a : ActiveDims) (x xp : ℕ → ℝ)
    (h : ∀ j, activeColsA a j → x j = xp j) : sliceRow a x = sliceRow a xp := by
  funext j
  cases a with
  | whole s =>
    simp only [sliceRow]
    split
    · exact h j (by assumption)
    · rfl
  | arr l =>
    simp only [sliceRow]
    split
    · next hlt =>
        refine h _ ?_
        show l.getD j 0 ∈ l
        rw [List.getD_eq_getElem l 0 hlt]
        exact List.getElem_mem hlt
    · rfl

theorem activeCols_lt_contrib {k : Kern} (h : WF k) {j : ℕ}
    (hj : k.activeCols j) : j < contrib k := by
  cases h with
  | base b hb =>
    rcases hab : b.active_dims with s | l
    · rw [Kern.activeCols, hab] at hj
      rw [hab] at hb
      simp only [contrib, hab]
      rw [activeWF] at hb
      exact hb ▸ hj
    · rw [Kern.activeCols, hab] at hj
      simp only [contrib, hab]
      exact Nat.lt_succ_of_le (le_listMax_of_mem hj)
  | add input_dim ks hne hwf hflat hdim => exact hj
  | prod input_dim ks hne hwf hflat hdim => exact hj

/-- C5: for every (constructible) kernel, `K(X, X2)` — in both its branches —
and `Kdiag(X)` depend only on the columns of the inputs selected by
`active_dims` (the first `input_dim` columns when `active_dims` was `None`):
inputs agreeing on those columns give identical outputs. -/
theorem active_dims_noninterference (k : Kern) (hk : WF k) :
    ∀ X Xp X2 X2p : ℕ → ℕ → ℝ,
      (∀ i j, k.activeCols j → X i j = Xp i j) →
      (∀ i j, k.activeCols j → X2 i j = X2p i j) →
      Kern.K2 X X2 k = Kern.K2 Xp X2p k
    ∧ Kern.Ksymm X k = Kern.Ksymm Xp k
    ∧ Kern.Kdiag X k = Kern.Kdiag Xp k := by
  induction hk with
  | base b hb =>
    intro X Xp X2 X2p hX hX2
    have hsX : ∀ i, sliceRow b.active_dims (X i) = sliceRow b.active_dims (Xp i) :=
      fun i => sliceRow_congr _ _ _ fun j hj => hX i j hj
    have hsX2 : ∀ i, sliceRow b.active_dims (X2 i) = sliceRow b.active_dims (X2p i) :=
      fun i => sliceRow_congr _ _ _ fun j hj => hX2 i j hj
    refine ⟨?_, ?_, ?_⟩
    · funext i j; simp only [Kern.K2]; rw [hsX i, hsX2 j]
    · funext i j; simp only [Kern.Ksymm]; rw [hsX i, hsX j]
    · funext i; simp only [Kern.Kdiag]; rw [hsX i]
  | add input_dim ks hne hwfl hflat hdim ih =>
    intro X Xp X2 X2p hX hX2
    have hcover : ∀ k' ∈ ks, ∀ j : ℕ, k'.activeCols j → j < input_dim := by
      intro k' hk' j hj
      rw [hdim]
      exact lt_of_lt_of_le (activeCols_lt_contrib (hwfl k' hk') hj)
        (le_listMax_of_mem (List.mem_map_of_mem contrib hk'))
    have hchild : ∀ k' ∈ ks,
        Kern.K2 X X2 k' = Kern.K2 Xp X2p k'
      ∧ Kern.Ksymm X k' = Kern.Ksymm Xp k'
      ∧ Kern.Kdiag X k' = Kern.Kdiag Xp k' := by
      intro k' hk'
      exact ih k' hk' X Xp X2 X2p
        (fun i j hj => hX i j (hcover k' hk' j hj))
        (fun i j hj => hX2 i j (hcover k' hk' j hj))
    refine ⟨?_, ?_, ?_⟩
    · show reduceAdd (K2list X X2 ks) = reduceAdd (K2list Xp X2p ks)
      rw [K2list_eq_map, K2list_eq_map]
      exact congrArg reduceAdd
        (List.map_congr_left fun k' hk' => (hchild k' hk').1)
    · show reduceAdd (Ksymmlist X ks) = reduceAdd (Ksymmlist Xp ks)
      rw [Ksymmlist_eq_map, Ksymmlist_eq_map]
      exact congrArg reduceAdd
        (List.map_congr_left fun k' hk' => (hchild k' hk').2.1)
    · show reduceAddV (Kdiaglist X ks) = reduceAddV (Kdiaglist Xp ks)
      rw [Kdiaglist_eq_map, Kdiaglist_eq_map]
      exact congrArg reduceAddV
        (List.map_congr_left fun k' hk' => (hchild k' hk').2.2)
  | prod input_dim ks hne hwfl hflat hdim ih =>
    intro X Xp X2 X2p hX hX2
    have hcover : ∀ k' ∈ ks, ∀ j : ℕ, k'.activeCols j → j < input_dim := by
      intro k' hk' j hj
      rw [hdim]
      exact lt_of_lt_of_le (activeCols_lt_contrib (hwfl k' hk') hj)
        (le_listMax_of_mem (List.mem_map_of_mem contrib hk'))
    have hchild : ∀ k' ∈ ks,
        Kern.K2 X X2 k' = Kern.K2 Xp X2p k'
      ∧ Kern.Ksymm X k' = Kern.Ksymm Xp k'
      ∧ Kern.Kdiag X k' = Kern.Kdiag Xp k' := by
      intro k' hk'
      exact ih k' hk' X Xp X2 X2p
        (fun i j hj => hX i j (hcover k' hk' j hj))
        (fun i j hj => hX2 i j (hcover k' hk' j hj))
    refine ⟨?_, ?_, ?_⟩
    · show reduceMul (K2list X X2 ks) = reduceMul (K2list Xp X2p ks)
      rw [K2list_eq_map, K2list_eq_map]
      exact congrArg reduceMul
        (List.map_congr_left fun k' hk' => (hchild k' hk').1)
    · show reduceMul (Ksymmlist X ks) = reduceMul (Ksymmlist Xp ks)
      rw [Ksymmlist_eq_map, Ksymmlist_eq_map]
      exact congrArg reduceMul
        (List.map_congr_left fun k' hk' => (hchild k' hk').2.1)
    · show reduceMulV (Kdiaglist X ks) = reduceMulV (Kdiaglist Xp ks)
      rw [Kdiaglist_eq_map, Kdiaglist_eq_map]
      exact congrArg reduceMulV
        (List.map_congr_left fun k' hk' => (hchild k' hk').2.2)

/-- Witness for C5: a `Linear` kernel with `active_dims = [0, 2]` gives the
same `K` matrix on two inputs that differ only in column `1`. -/
theorem active_dims_noninterference_witness :
    Kern.K2 (fun i j => if j = 1 then 5 else (i + j : ℝ)) (fun _ _ => 1)
        (Linear 2 (fun _ => 1) (ActiveDims.arr [0, 2]))
      = Kern.K2 (fun i j => if j = 1 then 7 else (i + j : ℝ)) (fun _ _ => 1)
        (Linear 2 (fun _ => 1) (ActiveDims.arr [0, 2])) := by
  refine (active_dims_noninterference (Linear 2 (fun _ => 1) (ActiveDims.arr [0, 2]))
      (WF.base _ rfl) _ _ _ _ ?_ ?_).1
  · intro i j hj
    have hj02 : j = 0 ∨ j = 2 := by
      simpa [Linear, Kern.activeCols, activeColsA] using hj
    rcases hj02 with rfl | rfl <;> norm_num
  · intro i j hj; rfl

/-! ### C2: `eKxz` computes the Gauss-Hermite quadrature of the expected
kernel -/

/-- Reversing the index order of a `D`-tuple is a bijection on tuples. -/
def revTupleEquiv (D H : ℕ) : (Fin D → Fin H) ≃ (Fin D → Fin H) :=
  ⟨fun t i => t (Fin.rev i), fun t i => t (Fin.rev i),
   fun t => by funext i; simp [Fin.rev_rev], fun t => by funext i; simp [Fin.rev_rev]⟩

/-- The base-`H` digits of `finFunctionFinEquiv t` (little-endian) are the
tuple `t`; `gridDigit` reads them in big-endian order, i.e. reversed. -/
theorem gridDigit_encode (H D : ℕ) (t : Fin D → Fin H) (e : ℕ) (he : e < D) :
    gridDigit H D ((finFunctionFinEquiv t : Fin (H ^ D)) : ℕ) e
      = (t (Fin.rev ⟨e, he⟩) : ℕ) := by
  have h1 : D - 1 - e < D := by omega
  have h2 : ((finFunctionFinEquiv.symm (finFunctionFinEquiv t)) ⟨D - 1 - e, h1⟩ : ℕ)
      = ((finFunctionFinEquiv t : Fin (H ^ D)) : ℕ) / H ^ (D - 1 - e) % H := rfl
  rw [Equiv.symm_apply_apply] at h2
  have h3 : Fin.rev ⟨e, he⟩ = (⟨D - 1 - e, h1⟩ : Fin D) := by
    apply Fin.ext
    simp only [Fin.val_rev]
    omega
  rw [gridDigit, ← h2, h3]

/-- C2: for every row-wise kernel `k` (every `K` in the module is row-wise in
its presliced inputs), `eKxz` returns exactly the Gauss-Hermite quadrature
sum described by the spec: `∑_i w_i * K(X_i, Z)` over the `H^D`
Cartesian-product grid, with `X_i = Xmu + sqrt 2 * chol(Xcov) * x_i` and
`w_i = pi^(-D/2)` times the product of the 1-D Hermite-Gauss weights. -/
theorem eKxz_matches_quadrature_spec (k : (ℕ → ℝ) → (ℕ → ℝ) → ℝ)
    (ghx ghw : ℕ → ℝ) (chol : (ℕ → ℕ → ℕ → ℝ) → ℕ → ℕ → ℕ → ℝ) (H D N : ℕ)
    (Xmu : ℕ → ℕ → ℝ) (Xcov : ℕ → ℕ → ℕ → ℝ) (Z : ℕ → ℕ → ℝ) (n m : ℕ)
    (hn : n < N) :
    eKxz k ghx ghw chol H D N Xmu Xcov Z n m
      = eKxzQuadSpec k ghx ghw chol H D Xmu Xcov Z n m := by
  have hN : 0 < N := lt_of_le_of_lt (Nat.zero_le n) hn
  have hrow : ∀ g : ℕ, mvh_Xr ghx H D N (chol Xcov) Xmu (g * N + n)
      = fun d => mvh_X ghx H D (chol Xcov) Xmu n d g := by
    intro g
    funext d
    have hmod : (g * N + n) % N = n := by
      rw [Nat.mul_comm g N, Nat.mul_add_mod]
      exact Nat.mod_eq_of_lt hn
    have hdiv : (g * N + n) / N = g := by
      rw [Nat.mul_comm, Nat.mul_add_div hN, Nat.div_eq_of_lt hn, Nat.add_zero]
    rw [mvh_Xr, hmod, hdiv]
  have key : ∀ t : Fin D → Fin H,
      k (mvh_Xr ghx H D N (chol Xcov) Xmu
          (((finFunctionFinEquiv t : Fin (H ^ D)) : ℕ) * N + n)) (Z m)
        * mvh_w ghw H D ((finFunctionFinEquiv t : Fin (H ^ D)) : ℕ)
      = (Real.pi ^ (-(D : ℝ) / 2)
            * ∏ e : Fin D, ghw (((fun i => t (Fin.rev i)) e : Fin H) : ℕ)) *
          k (fun d => Xmu n d + Real.sqrt 2
              * ∑ e : Fin D, chol Xcov n d e * ghx ((((fun i => t (Fin.rev i)) e
                  : Fin H)) : ℕ))
            (Z m) := by
    intro t
    have hloc : mvh_Xr ghx H D N (chol Xcov) Xmu
        (((finFunctionFinEquiv t : Fin (H ^ D)) : ℕ) * N + n)
        = fun d => Xmu n d + Real.sqrt 2
            * ∑ e : Fin D, chol Xcov n d e * ghx ((t (Fin.rev e) : ℕ)) := by
      rw [hrow]
      funext d
      rw [mvh_X, add_comm]
      congr 1
      congr 1
      rw [← Fin.sum_univ_eq_sum_range
        (fun e => chol Xcov n d e *
          mvh_xn ghx H D ((finFunctionFinEquiv t : Fin (H ^ D)) : ℕ) e) D]
      refine Finset.sum_congr rfl fun e _ => ?_
      rw [mvh_xn, gridDigit_encode H D t e e.isLt]
    have hw : mvh_w ghw H D ((finFunctionFinEquiv t : Fin (H ^ D)) : ℕ)
        = Real.pi ^ (-(D : ℝ) / 2) * ∏ e : Fin D, ghw ((t (Fin.rev e) : ℕ)) := by
      rw [mvh_w, mvh_wn, mul_comm]
      have hexp : (-(D : ℝ) * 0.5) = (-(D : ℝ) / 2) := by ring
      rw [hexp]
      congr 1
      rw [← Fin.prod_univ_eq_prod_range
        (fun e => ghw (gridDigit H D ((finFunctionFinEquiv t : Fin (H ^ D)) : ℕ) e)) D]
      refine Finset.prod_congr rfl fun e _ => ?_
      rw [gridDigit_encode H D t e e.isLt]
    rw [hloc, hw, mul_comm]
  rw [eKxz, eKxzQuadSpec,
    ← Fin.sum_univ_eq_sum_range
      (fun g => k (mvh_Xr ghx H D N (chol Xcov) Xmu (g * N + n)) (Z m)
        * mvh_w ghw H D g) (H ^ D),
    ← Equiv.sum_comp (finFunctionFinEquiv (m := H) (n := D))
      (fun g : Fin (H ^ D) =>
        k (mvh_Xr ghx H D N (chol Xcov) Xmu ((g : ℕ) * N + n)) (Z m)
          * mvh_w ghw H D (g : ℕ)),
    ← Equiv.sum_comp (revTupleEquiv D H)
      (fun t : Fin D → Fin H =>
        (Real.pi ^ (-(D : ℝ) / 2) * ∏ e : Fin D, ghw ((t e : ℕ))) *
          k (fun d => Xmu n d + Real.sqrt 2
              * ∑ e : Fin D, chol Xcov n d e * ghx ((t e : ℕ))) (Z m))]
  exact Finset.sum_congr rfl fun t _ => key t

/-- Witness for C2 with `H = D = N = M = 1` and simple concrete data. -/
theorem eKxz_matches_quadrature_spec_witness :
    eKxz (fun x y => x 0 * y 0) (fun _ => 1) (fun _ => 1)
        (fun _ _ _ _ => 1) 1 1 1 (fun _ _ => 0) (fun _ _ _ => 1) (fun _ _ => 3) 0 0
      = eKxzQuadSpec (fun x y => x 0 * y 0) (fun _ => 1) (fun _ => 1)
        (fun _ _ _ _ => 1) 1 1 (fun _ _ => 0) (fun _ _ _ => 1) (fun _ _ => 3) 0 0 :=
  eKxz_matches_quadrature_spec _ _ _ _ 1 1 1 _ _ _ 0 0 (by norm_num)

/-! ### C1: the Cosine kernel's Gram matrix is not positive semi-definite -/

/-- Three planar inputs: the vertices `(0,0)`, `(π,0)`, `(π/2, √3·π/2)` of an
equilateral triangle with side `π`. -/
def cosX : ℕ → ℕ → ℝ := fun i j =>
  if i = 0 then 0
  else if i = 1 then (if j = 0 then Real.pi else 0)
  else if i = 2 then
    (if j = 0 then Real.pi / 2 else if j = 1 then Real.sqrt 3 * Real.pi / 2 else 0)
  else 0

/-- A two-dimensional Cosine kernel with default parameters. -/
def cosK : Kern := Cosine 2 1 (fun _ => 1) (ActiveDims.whole 2)

/-- The all-ones test vector for the quadratic form. -/
def vOne : ℕ → ℝ := fun _ => 1

theorem cosX_slice (i : ℕ) : sliceRow (ActiveDims.whole 2) (cosX i) = cosX i := by
  funext j
  simp only [sliceRow]
  split
  · rfl
  · next h =>
      have hj0 : j ≠ 0 := by omega
      have hj1 : j ≠ 1 := by omega
      simp [cosX, hj0, hj1]

theorem cosine_entry (i j : ℕ) :
    Kern.Ksymm cosX cosK i j
      = Real.cos (Real.sqrt (square_dist (fun _ => 1) 2 (cosX i) (cosX j) + 1e-12)) := by
  simp [Kern.Ksymm, cosK, Cosine, baseEntry, euclid_dist, cosX_slice]

theorem cosX_sq (i j : ℕ) (hi : i < 3) (hj : j < 3) :
    square_dist (fun _ => 1) 2 (cosX i) (cosX j)
      = if i = j then 0 else Real.pi ^ 2 := by
  have h3 : Real.sqrt 3 ^ 2 = 3 := Real.sq_sqrt (by norm_num)
  interval_cases i <;> interval_cases j <;>
    norm_num [square_dist_eq_naive, Finset.sum_range_succ, cosX] <;>
    linear_combination (Real.pi ^ 2 / 4) * h3

theorem cos_sqrt_near_pi_lt_neg_half :
    Real.cos (Real.sqrt (Real.pi ^ 2 + 1e-12)) < -(1 / 2) := by
  have hs_ge : Real.pi ≤ Real.sqrt (Real.pi ^ 2 + 1e-12) := by
    rw [Real.le_sqrt' Real.pi_pos]
    norm_num
  have hs_le : Real.sqrt (Real.pi ^ 2 + 1e-12) ≤ Real.pi + 1e-6 := by
    rw [Real.sqrt_le_left (by positivity)]
    nlinarith [Real.pi_pos]
  have hcos : Real.cos (Real.sqrt (Real.pi ^ 2 + 1e-12))
      = -Real.cos (Real.sqrt (Real.pi ^ 2 + 1e-12) - Real.pi) := by
    have h := Real.cos_add_pi (Real.sqrt (Real.pi ^ 2 + 1e-12) - Real.pi)
    rw [sub_add_cancel] at h
    exact h
  rw [hcos]
  have h1 : 1 - (Real.sqrt (Real.pi ^ 2 + 1e-12) - Real.pi) ^ 2 / 2
      ≤ Real.cos (Real.sqrt (Real.pi ^ 2 + 1e-12) - Real.pi) :=
    Real.one_sub_sq_div_two_le_cos
  nlinarith [hs_ge, hs_le]

/-- C1 is violated by the code: the claim (and the spec) promise that every
kernel's `K(X, X)` is positive semi-definite, but for the `Cosine` kernel the
all-ones quadratic form of `K(X, X)` at the three planar inputs `cosX` is
negative — `cos‖x - x'‖` is not a valid covariance in two dimensions. -/
theorem cosine_gram_not_psd :
    (∑ i ∈ Finset.range 3, ∑ j ∈ Finset.range 3,
        vOne i * Kern.Ksymm cosX cosK i j * vOne j) < 0 := by
  have hdiag : ∀ i : ℕ, i < 3 →
      Kern.Ksymm cosX cosK i i = Real.cos (Real.sqrt 1e-12) := by
    intro i hi
    rw [cosine_entry, cosX_sq i i hi hi, if_pos rfl, zero_add]
  have hoff : ∀ i j : ℕ, i < 3 → j < 3 → i ≠ j →
      Kern.Ksymm cosX cosK i j
        = Real.cos (Real.sqrt (Real.pi ^ 2 + 1e-12)) := by
    intro i j hi hj hne
    rw [cosine_entry, cosX_sq i j hi hj, if_neg hne]
  have hc1 : Real.cos (Real.sqrt 1e-12) ≤ 1 := Real.cos_le_one _
  have hc2 : Real.cos (Real.sqrt (Real.pi ^ 2 + 1e-12)) < -(1 / 2) :=
    cos_sqrt_near_pi_lt_neg_half
  simp only [Finset.sum_range_succ, Finset.sum_range_zero, zero_add, vOne,
    one_mul, mul_one]
  rw [hdiag 0 (by norm_num), hdiag 1 (by norm_num), hdiag 2 (by norm_num),
    hoff 0 1 (by norm_num) (by norm_num) (by norm_num),
    hoff 0 2 (by norm_num) (by norm_num) (by norm_num),
    hoff 1 0 (by norm_num) (by norm_num) (by norm_num),
    hoff 1 2 (by norm_num) (by norm_num) (by norm_num),
    hoff 2 0 (by norm_num) (by norm_num) (by norm_num),
    hoff 2 1 (by norm_num) (by norm_num) (by norm_num)]
  linarith

end GPflow
